import Mathlib

/-!
Shallow embedding of the Simpson's-rule integrator from `Simpson.py` /
`simpson.py` (function `approx`): node generation via `np.linspace`, the
composite Simpson summation loop, the node-count validation, and the
three-line comparison report.  Exact arithmetic is modelled over an
arbitrary field (instantiated at `ℚ` for concrete evaluation); Python's
runtime errors (the `ValueError` for an even node count, the
`ZeroDivisionError` at `h = (b-a)/n` when `n = 0`, numpy's rejection of a
negative sample count, and an out-of-bounds index) become an explicit
error type.
-/

namespace Simpson

/-- The ways the Python call `approx(f, a, b, n_node)` can fail:
`invalidNodeCount` is the explicit `ValueError("Number of nodes cannot be
even.")`; `divisionByZero` is Python's `ZeroDivisionError` at
`h = (b - a)/n` when `n = 0`; `negativeSampleCount` is numpy's
`ValueError` from `np.linspace(a, b, n_node)` with a negative count;
`indexOutOfBounds` is an `IndexError` from `values[...]` in the loop. -/
inductive ApproxError where
  | invalidNodeCount
  | divisionByZero
  | negativeSampleCount
  | indexOutOfBounds
deriving DecidableEq

variable {α : Type} [Field α]

/-- Embedding of `np.linspace(a, b, num)`: the points `a + i*step` with
`step = (b - a)/(num - 1)`, the last entry then set to the exact right
endpoint `b` (numpy assigns `y[-1] = stop` when `num > 1`). -/
def linspace (a b : α) (num : ℕ) : List α :=
  if num ≤ 1 then (List.range num).map (fun (i : ℕ) => a + (i : α) * (b - a))
  else
    ((List.range num).map
      (fun (i : ℕ) => a + (i : α) * ((b - a) / ((num : α) - 1)))).set (num - 1) b

/-- Embedding of the accumulation loop
`for i in range(m): sum += values[2*i] + 4*values[2*i+1] + values[2*i+2]`,
with Python's list indexing modelled by option-valued indexing (`none`
is an `IndexError`). -/
def simpsonLoop (values : List α) : ℕ → Option α
  | 0 => some 0
  | m + 1 =>
    (simpsonLoop values m).bind (fun s =>
      (values[2*m]?).bind (fun v0 =>
        (values[2*m+1]?).bind (fun v1 =>
          (values[2*m+2]?).map (fun v2 => s + (v0 + 4 * v1 + v2)))))

/-- Embedding of `approx(f, a, b, n_node)` from `Simpson.py`, returning the
Simpson estimate `sum * (h/6)` (the value the source prints as
`We calculated:`).  The steps and their order follow the source: the
evenness check `n_node & 1`, then `n = (n_node - 1) // 2`,
`h = (b - a)/n` (division by zero when `n = 0`),
`nodes = np.linspace(a, b, n_node)` (rejects a negative count),
`values = f(nodes)`, and the weighted summation loop.  The comparison
against `scipy.integrate.quad` and the printing are modelled separately
(`reportLines`, `approxRun`). -/
def approx (f : α → α) (a b : α) (nNode : ℤ) : Except ApproxError α :=
  if nNode % 2 = 0 then .error .invalidNodeCount
  else
    let n : ℤ := (nNode - 1) / 2
    if n = 0 then .error .divisionByZero
    else if nNode < 0 then .error .negativeSampleCount
    else
      let h : α := (b - a) / (n : α)
      let nodes := linspace a b nNode.toNat
      let values := nodes.map f
      match simpsonLoop values n.toNat with
      | some s => .ok (s * (h / 6))
      | none => .error .indexOutOfBounds

theorem linspace_length (a b : α) (num : ℕ) : (linspace a b num).length = num := by
  unfold linspace
  split
  · rw [List.length_map, List.length_range]
  · rw [List.length_set, List.length_map, List.length_range]

theorem linspace_getD [CharZero α] (a b : α) (num : ℕ) (h2 : 2 ≤ num)
    (j : ℕ) (hj : j < num) :
    (linspace a b num).getD j 0 = a + (j : α) * (b - a) / ((num : α) - 1) := by
  have hne : ((num : α) - 1) ≠ 0 := by
    have h1 : num ≠ 1 := by omega
    exact sub_ne_zero.mpr (by exact_mod_cast h1)
  have hlen : j < (linspace a b num).length := by rw [linspace_length]; exact hj
  rw [List.getD_eq_getElem _ 0 hlen]
  unfold linspace
  simp only [if_neg (by omega : ¬ num ≤ 1)]
  rw [List.getElem_set]
  by_cases hlast : num - 1 = j
  · rw [if_pos hlast]
    have hcast : (j : α) = (num : α) - 1 := by
      rw [← hlast]
      push_cast [Nat.cast_sub (by omega : 1 ≤ num)]
      ring
    rw [hcast]
    field_simp
  · rw [if_neg hlast]
    rw [List.getElem_map, List.getElem_range]
    ring

theorem simpsonLoop_eq_sum (values : List α) (m : ℕ) (hm : 2 * m < values.length) :
    simpsonLoop values m = some (∑ i in Finset.range m,
      (values.getD (2*i) 0 + 4 * values.getD (2*i+1) 0 + values.getD (2*i+2) 0)) := by
  induction m with
  | zero => simp [simpsonLoop]
  | succ k ih =>
    have hk : 2 * k < values.length := by omega
    have h0 : 2 * k < values.length := by omega
    have h1 : 2 * k + 1 < values.length := by omega
    have h2 : 2 * k + 2 < values.length := by omega
    rw [simpsonLoop, ih hk]
    rw [List.getElem?_eq_getElem h0, List.getElem?_eq_getElem h1,
      List.getElem?_eq_getElem h2]
    rw [Finset.sum_range_succ]
    rw [List.getD_eq_getElem _ 0 h0, List.getD_eq_getElem _ 0 h1,
      List.getD_eq_getElem _ 0 h2]
    rfl

/-- Closed form of `approx` on valid input: for odd `n_node ≥ 3` the call
succeeds and returns the weighted Simpson sum times `h/6`, with the nodes
written out as `a + j·(b-a)/(n_node - 1)`. -/
theorem approx_eq_sum [CharZero α] (f : α → α) (a b : α) (nn : ℤ)
    (hodd : nn % 2 = 1) (h3 : 3 ≤ nn) :
    approx f a b nn = .ok ((∑ i in Finset.range ((nn - 1) / 2).toNat,
        (f (a + ((2*i : ℕ) : α) * (b - a) / ((nn : α) - 1))
          + 4 * f (a + ((2*i+1 : ℕ) : α) * (b - a) / ((nn : α) - 1))
          + f (a + ((2*i+2 : ℕ) : α) * (b - a) / ((nn : α) - 1)))) *
      (((b - a) / ((((nn - 1) / 2).toNat : ℕ) : α)) / 6)) := by
  have hnot : ¬ nn % 2 = 0 := by omega
  have hn2 : (nn - 1) / 2 * 2 = nn - 1 := by omega
  have hnne : ¬ (nn - 1) / 2 = 0 := by omega
  have hnneg : ¬ nn < 0 := by omega
  set k : ℕ := ((nn - 1) / 2).toNat with hk
  have hkval : (k : ℤ) = (nn - 1) / 2 := Int.toNat_of_nonneg (by omega)
  have h2k : 2 * k = nn.toNat - 1 := by omega
  have hlen : ((linspace a b nn.toNat).map f).length = nn.toNat := by
    rw [List.length_map, linspace_length]
  have hloop := simpsonLoop_eq_sum ((linspace a b nn.toNat).map f) k
    (by rw [hlen]; omega)
  have hnum2 : 2 ≤ nn.toNat := by omega
  have hcastnn : ((nn.toNat : ℕ) : α) = (nn : α) := by
    rw_mod_cast [Int.toNat_of_nonneg (by omega : (0:ℤ) ≤ nn)]
  have hgetD : ∀ j : ℕ, j < nn.toNat →
      ((linspace a b nn.toNat).map f).getD j 0
        = f (a + (j : α) * (b - a) / ((nn : α) - 1)) := by
    intro j hj
    have hj' : j < ((linspace a b nn.toNat).map f).length := by rw [hlen]; exact hj
    rw [List.getD_eq_getElem _ 0 hj', List.getElem_map]
    congr 1
    rw [← List.getD_eq_getElem _ 0, linspace_getD a b nn.toNat hnum2 j hj, hcastnn]
  have hsum : (∑ i in Finset.range k,
      (((linspace a b nn.toNat).map f).getD (2*i) 0
        + 4 * ((linspace a b nn.toNat).map f).getD (2*i+1) 0
        + ((linspace a b nn.toNat).map f).getD (2*i+2) 0))
      = ∑ i in Finset.range k,
        (f (a + ((2*i : ℕ) : α) * (b - a) / ((nn : α) - 1))
          + 4 * f (a + ((2*i+1 : ℕ) : α) * (b - a) / ((nn : α) - 1))
          + f (a + ((2*i+2 : ℕ) : α) * (b - a) / ((nn : α) - 1))) := by
    refine Finset.sum_congr rfl (fun i hi => ?_)
    rw [Finset.mem_range] at hi
    rw [hgetD (2*i) (by omega), hgetD (2*i+1) (by omega), hgetD (2*i+2) (by omega)]
  have hscal : (((nn - 1) / 2 : ℤ) : α) = ((k : ℕ) : α) := by
    rw [← hkval]
    exact Int.cast_natCast k
  unfold approx
  simp only [if_neg hnot, if_neg hnne, if_neg hnneg, ← hk]
  rw [hloop]
  exact congrArg Except.ok (by rw [hsum, hscal])

/-- C1: for every odd `n_node ≥ 3`, every `a`, `b` and every `f`, the
Simpson estimate computed by `approx` is `(h/6)` times
`∑ i < n, (values[2i] + 4·values[2i+1] + values[2i+2])` with
`n = (n_node - 1)/2`, `h = (b - a)/n` and `values[j] = f(node[j])`,
`node[j] = a + j·(b-a)/(n_node - 1)`.  (The source multiplies the sum by
`h/6` on the right; the product is the same.) -/
theorem approx_simpson_formula [CharZero α] (f : α → α) (a b : α) (nn : ℤ)
    (hodd : nn % 2 = 1) (h3 : 3 ≤ nn) :
    approx f a b nn = .ok ((((b - a) / ((((nn - 1) / 2).toNat : ℕ) : α)) / 6) *
      ∑ i in Finset.range ((nn - 1) / 2).toNat,
        (f (a + ((2*i : ℕ) : α) * (b - a) / ((nn : α) - 1))
          + 4 * f (a + ((2*i+1 : ℕ) : α) * (b - a) / ((nn : α) - 1))
          + f (a + ((2*i+2 : ℕ) : α) * (b - a) / ((nn : α) - 1)))) := by
  rw [approx_eq_sum f a b nn hodd h3, mul_comm]

/-- Witness for C1 at `f = id`, `a = 0`, `b = 1`, `n_node = 3` over `ℚ`. -/
theorem approx_simpson_formula_witness :
    approx (fun x : ℚ => x) 0 1 3 = .ok ((((1 - 0) / (((((3:ℤ) - 1) / 2).toNat : ℕ) : ℚ)) / 6) *
      ∑ i in Finset.range (((3:ℤ) - 1) / 2).toNat,
        ((fun x : ℚ => x) (0 + ((2*i : ℕ) : ℚ) * (1 - 0) / (((3:ℤ) : ℚ) - 1))
          + 4 * (fun x : ℚ => x) (0 + ((2*i+1 : ℕ) : ℚ) * (1 - 0) / (((3:ℤ) : ℚ) - 1))
          + (fun x : ℚ => x) (0 + ((2*i+2 : ℕ) : ℚ) * (1 - 0) / (((3:ℤ) : ℚ) - 1)))) :=
  approx_simpson_formula (fun x : ℚ => x) 0 1 3 (by decide) (by decide)

/-- Shared helper: the evenness check fires first, uniformly in `f`, `a`,
`b`. -/
theorem approx_even_aux (f : α → α) (a b : α) (nn : ℤ) (heven : nn % 2 = 0) :
    approx f a b nn = .error .invalidNodeCount := by
  unfold approx
  rw [if_pos heven]

/-- C3: for every even `n_node` (and every `f`, `a`, `b` — the result is
uniform in them, so `f` is never consulted and no node set contributes),
`approx` fails with the invalid-node-count error. -/
theorem approx_even_invalidNodeCount (f : α → α) (a b : α) (nn : ℤ)
    (heven : nn % 2 = 0) :
    approx f a b nn = .error .invalidNodeCount :=
  approx_even_aux f a b nn heven

/-- Witness for C3 at the spec's test point `n_node = 50`. -/
theorem approx_even_invalidNodeCount_witness :
    approx (fun x : ℚ => x) 0 1 50 = .error .invalidNodeCount :=
  approx_even_invalidNodeCount (fun x : ℚ => x) 0 1 50 (by decide)

/-- C9: for odd `n_node ≥ 3` and a value list of length `n_node`, every
index `2i`, `2i+1`, `2i+2` used by the summation loop (for `i < n`,
`n = (n_node - 1)/2`) lies in `[0, n_node - 1]`, and the option-valued
loop indexing never hits the out-of-bounds branch. -/
theorem simpsonLoop_indices_in_bounds (values : List α) (nn : ℤ)
    (hodd : nn % 2 = 1) (h3 : 3 ≤ nn) (hlen : (values.length : ℤ) = nn) :
    (∀ i < ((nn - 1) / 2).toNat,
      ((2*i : ℕ) : ℤ) ≤ nn - 1 ∧ ((2*i+1 : ℕ) : ℤ) ≤ nn - 1 ∧
        ((2*i+2 : ℕ) : ℤ) ≤ nn - 1) ∧
    ∃ s, simpsonLoop values ((nn - 1) / 2).toNat = some s := by
  constructor
  · intro i hi
    refine ⟨by push_cast; omega, by push_cast; omega, by push_cast; omega⟩
  · have hb : 2 * ((nn - 1) / 2).toNat < values.length := by omega
    exact ⟨_, simpsonLoop_eq_sum values _ hb⟩

/-- Witness for C9 on the concrete list `[0, 1, 2]` with `n_node = 3`. -/
theorem simpsonLoop_indices_in_bounds_witness :
    (∀ i < (((3:ℤ) - 1) / 2).toNat,
      ((2*i : ℕ) : ℤ) ≤ 3 - 1 ∧ ((2*i+1 : ℕ) : ℤ) ≤ 3 - 1 ∧
        ((2*i+2 : ℕ) : ℤ) ≤ 3 - 1) ∧
    ∃ s, simpsonLoop ([0, 1, 2] : List ℚ) (((3:ℤ) - 1) / 2).toNat = some s :=
  simpsonLoop_indices_in_bounds ([0, 1, 2] : List ℚ) 3 (by decide) (by decide)
    (by decide)

/-- C4 counterexample: at `n_node = 1` the call does not fail with the
invalid-node-count error; it fails with the division-by-zero error
(`h = (b - a)/n` with `n = 0`), exactly the "unrelated error" the claim
rules out. -/
theorem approx_one_not_invalidNodeCount :
    approx (fun x : ℚ => x) 0 1 1 = .error .divisionByZero ∧
      approx (fun x : ℚ => x) 0 1 1 ≠ .error .invalidNodeCount := by
  constructor
  · rfl
  · intro h
    simp [approx] at h

/-- C4 amended: `approx` with `n_node = 1` fails, but with the
division-by-zero error rather than `InvalidNodeCount`; the
invalid-node-count error is raised exactly when `n_node` is even. -/
theorem approx_one_divisionByZero (f : α → α) (a b : α) (nn : ℤ) :
    approx f a b 1 = .error .divisionByZero ∧
      (approx f a b nn = .error .invalidNodeCount ↔ nn % 2 = 0) := by
  constructor
  · simp [approx]
  · constructor
    · intro h
      by_contra hodd
      unfold approx at h
      rw [if_neg hodd] at h
      simp only at h
      split at h
      · exact absurd (Except.error.inj h) (by simp)
      · split at h
        · exact absurd (Except.error.inj h) (by simp)
        · split at h
          · exact absurd h (by simp)
          · exact absurd (Except.error.inj h) (by simp)
    · intro h
      exact approx_even_aux f a b nn h

/-- The Simpson estimate in the exact shape computed by the active loop of
`Simpson.py`: the weighted sum over the `(n_node - 1)/2` double
subintervals, multiplied by `h/6` with `h = (b - a)/n`. -/
def simpsonLoopForm (v : ℕ → α) (nNode : ℕ) (a b : α) : α :=
  (∑ i in Finset.range ((nNode - 1) / 2),
    (v (2*i) + 4 * v (2*i+1) + v (2*i+2))) *
    (((b - a) / (((nNode - 1) / 2 : ℕ) : α)) / 6)

/-- Modelled from the commented-out vectorized variant in `simpson.py`:
`h/3 * (values[0] + 4*sum(values[1:-1:2]) + 2*sum(values[2:-2:2]) +
values[-1])` with `h = (b - a)/(n_node - 1)`; for an odd `n_node = 2n+1`
the slice `values[1:-1:2]` is the `n` odd-indexed interior entries and
`values[2:-2:2]` the `n - 1` even-indexed interior entries. -/
def simpsonVecForm (v : ℕ → α) (nNode : ℕ) (a b : α) : α :=
  ((b - a) / ((nNode : α) - 1)) / 3 *
    (v 0 + 4 * ∑ i in Finset.range ((nNode - 1) / 2), v (2*i+1)
      + 2 * ∑ i in Finset.range ((nNode - 1) / 2 - 1), v (2*i+2)
      + v (nNode - 1))

/-- C6: for every odd `n_node ≥ 3` and every value sequence, the loop form
of the Simpson estimate equals the vectorized form, over exact
arithmetic. -/
theorem loopForm_eq_vecForm [CharZero α] (v : ℕ → α) (nNode : ℕ) (a b : α)
    (hodd : nNode % 2 = 1) (h3 : 3 ≤ nNode) :
    simpsonLoopForm v nNode a b = simpsonVecForm v nNode a b := by
  obtain ⟨m, hm⟩ : ∃ m, nNode = 2 * (m + 1) + 1 := ⟨nNode / 2 - 1, by omega⟩
  subst hm
  have hdiv : (2 * (m + 1) + 1 - 1) / 2 = m + 1 := by omega
  have hlast : 2 * (m + 1) + 1 - 1 = 2 * (m + 1) := by omega
  have hm1 : m + 1 - 1 = m := by omega
  unfold simpsonLoopForm simpsonVecForm
  rw [hdiv, hlast, hm1]
  have hcast : ((2 * (m + 1) + 1 : ℕ) : α) - 1 = 2 * ((m + 1 : ℕ) : α) := by
    push_cast
    ring
  rw [hcast]
  have hfirst : (∑ i in Finset.range (m + 1), v (2*i))
      = (∑ i in Finset.range m, v (2*i+2)) + v 0 := by
    rw [Finset.sum_range_succ' (fun i => v (2*i)) m]
    simp [Nat.mul_succ]
  have hsecond : (∑ i in Finset.range (m + 1), v (2*i+2))
      = (∑ i in Finset.range m, v (2*i+2)) + v (2*(m+1)) := by
    rw [Finset.sum_range_succ (fun i => v (2*i+2)) m]
    simp [Nat.mul_succ]
  have hsplit : (∑ i in Finset.range (m + 1), (v (2*i) + 4 * v (2*i+1) + v (2*i+2)))
      = (∑ i in Finset.range (m + 1), v (2*i))
        + 4 * (∑ i in Finset.range (m + 1), v (2*i+1))
        + (∑ i in Finset.range (m + 1), v (2*i+2)) := by
    rw [Finset.sum_add_distrib, Finset.sum_add_distrib, Finset.mul_sum]
  rw [hsplit, hfirst, hsecond]
  have hmne : ((m + 1 : ℕ) : α) ≠ 0 := Nat.cast_ne_zero.mpr (by omega)
  have hscal : (b - a) / ((m + 1 : ℕ) : α) / 6
      = (b - a) / (2 * ((m + 1 : ℕ) : α)) / 3 := by
    field_simp
    ring
  rw [hscal]
  ring

/-- Witness for C6 at `v i = i`, `n_node = 3`, `a = 0`, `b = 1` over `ℚ`. -/
theorem loopForm_eq_vecForm_witness :
    simpsonLoopForm (fun i => (i : ℚ)) 3 0 1 = simpsonVecForm (fun i => (i : ℚ)) 3 0 1 :=
  loopForm_eq_vecForm (fun i => (i : ℚ)) 3 0 1 (by decide) (by decide)

/-- C5: for odd `n_node ≥ 3` and `a < b`, the node list built by `approx`
(the embedded `np.linspace`) has exactly `n_node` entries, its `j`-th
entry is `a + j·(b-a)/(n_node-1)` (both endpoints included), and the value
list is `f` mapped over the nodes in order, so `values[j] = f(node[j])`. -/
theorem linspace_nodes_spec {K : Type} [LinearOrderedField K]
    (f : K → K) (a b : K) (nn : ℤ)
    (hab : a < b) (hodd : nn % 2 = 1) (h3 : 3 ≤ nn) :
    (linspace a b nn.toNat).length = nn.toNat ∧
    (∀ j < nn.toNat,
      (linspace a b nn.toNat).getD j 0 = a + (j : K) * (b - a) / ((nn : K) - 1)) ∧
    ((linspace a b nn.toNat).map f).length = nn.toNat ∧
    (∀ j < nn.toNat,
      ((linspace a b nn.toNat).map f).getD j 0
        = f ((linspace a b nn.toNat).getD j 0)) := by
  have hnum2 : 2 ≤ nn.toNat := by omega
  have hcastnn : ((nn.toNat : ℕ) : K) = (nn : K) := by
    rw_mod_cast [Int.toNat_of_nonneg (by omega : (0:ℤ) ≤ nn)]
  refine ⟨linspace_length a b nn.toNat, fun j hj => ?_, ?_, fun j hj => ?_⟩
  · rw [linspace_getD a b nn.toNat hnum2 j hj, hcastnn]
  · rw [List.length_map, linspace_length]
  · have hj' : j < ((linspace a b nn.toNat).map f).length := by
      rw [List.length_map, linspace_length]
      exact hj
    have hj'' : j < (linspace a b nn.toNat).length := by
      rw [linspace_length]
      exact hj
    rw [List.getD_eq_getElem _ 0 hj', List.getElem_map, List.getD_eq_getElem _ 0 hj'']

/-- Witness for C5: the middle node for `a = 0`, `b = 1`, `n_node = 3`. -/
theorem linspace_nodes_spec_witness :
    (linspace (0:ℚ) 1 (3:ℤ).toNat).getD 1 0 = 0 + ((1:ℕ) : ℚ) * (1 - 0) / (((3:ℤ) : ℚ) - 1) :=
  (linspace_nodes_spec (fun x : ℚ => x) 0 1 3 (by norm_num) (by decide)
    (by decide)).2.1 1 (by decide)

/-- For odd `n_node ≥ 3`, the cast node-count denominator `n_node - 1`
equals twice the double-subinterval count. -/
theorem cast_nn_sub_one [CharZero α] (nn : ℤ) (hodd : nn % 2 = 1) (h3 : 3 ≤ nn) :
    ((nn : α) - 1) = 2 * ((((nn - 1) / 2).toNat : ℕ) : α) := by
  have h : (nn - 1 : ℤ) = 2 * ((((nn - 1) / 2).toNat : ℕ) : ℤ) := by omega
  calc (nn : α) - 1 = ((nn - 1 : ℤ) : α) := by push_cast; ring
    _ = ((2 * ((((nn - 1) / 2).toNat : ℕ) : ℤ) : ℤ) : α) := by rw [← h]
    _ = 2 * ((((nn - 1) / 2).toNat : ℕ) : α) := by push_cast; ring

/-- A general polynomial of degree at most 3, `c₃x³ + c₂x² + c₁x + c₀`. -/
def cubic (c3 c2 c1 c0 x : α) : α := c3 * x^3 + c2 * x^2 + c1 * x + c0

/-- Modelled from the spec: the exact analytic integral
`∫ₐᵇ (c₃x³ + c₂x² + c₁x + c₀) dx`, the reference value that Simpson's rule
must reproduce exactly for cubics (the scipy quadrature oracle that
supplies the reference at run time is external to `src/`). -/
def cubicIntegral (c3 c2 c1 c0 a b : α) : α :=
  c3 * (b^4 - a^4) / 4 + c2 * (b^3 - a^3) / 3 + c1 * (b^2 - a^2) / 2 + c0 * (b - a)

/-- Antiderivative of `cubic`, used to telescope the Simpson sum. -/
def cubicAnti (c3 c2 c1 c0 x : α) : α :=
  c3 * x^4 / 4 + c2 * x^3 / 3 + c1 * x^2 / 2 + c0 * x

/-- C2: for every polynomial of degree at most 3, every interval `[a, b]`
with `a < b`, and every odd `n_node ≥ 3`, the Simpson estimate computed by
`approx` equals the exact analytic integral (exactness for cubics, over
exact arithmetic). -/
theorem approx_exact_on_cubics {K : Type} [LinearOrderedField K]
    (c3 c2 c1 c0 a b : K) (nn : ℤ)
    (hab : a < b) (hodd : nn % 2 = 1) (h3 : 3 ≤ nn) :
    approx (cubic c3 c2 c1 c0) a b nn = .ok (cubicIntegral c3 c2 c1 c0 a b) := by
  rw [approx_eq_sum (cubic c3 c2 c1 c0) a b nn hodd h3]
  refine congrArg Except.ok ?_
  set k : ℕ := ((nn - 1) / 2).toNat with hk
  have hkpos : 1 ≤ k := by omega
  have hkne : ((k : ℕ) : K) ≠ 0 := Nat.cast_ne_zero.mpr (by omega)
  have hnncast : ((nn : K) - 1) = 2 * ((k : ℕ) : K) := cast_nn_sub_one nn hodd h3
  have hterm : ∀ i : ℕ,
      (cubic c3 c2 c1 c0 (a + ((2*i : ℕ) : K) * (b - a) / ((nn : K) - 1))
        + 4 * cubic c3 c2 c1 c0 (a + ((2*i+1 : ℕ) : K) * (b - a) / ((nn : K) - 1))
        + cubic c3 c2 c1 c0 (a + ((2*i+2 : ℕ) : K) * (b - a) / ((nn : K) - 1)))
        * (((b - a) / ((k : ℕ) : K)) / 6)
      = (fun j : ℕ => cubicAnti c3 c2 c1 c0 (a + (j : K) * ((b - a) / ((k : ℕ) : K)))) (i+1)
        - (fun j : ℕ => cubicAnti c3 c2 c1 c0 (a + (j : K) * ((b - a) / ((k : ℕ) : K)))) i := by
    intro i
    rw [hnncast]
    unfold cubic cubicAnti
    simp only
    push_cast
    field_simp
    ring
  rw [Finset.sum_mul, Finset.sum_congr rfl (fun i _ => hterm i),
    Finset.sum_range_sub (fun j : ℕ => cubicAnti c3 c2 c1 c0
      (a + (j : K) * ((b - a) / ((k : ℕ) : K)))) k]
  have hb : a + ((k : ℕ) : K) * ((b - a) / ((k : ℕ) : K)) = b := by
    field_simp
  have ha : a + (((0 : ℕ)) : K) * ((b - a) / ((k : ℕ) : K)) = a := by
    push_cast
    ring
  rw [hb, ha]
  unfold cubicAnti cubicIntegral
  ring

/-- Witness for C2: `f(x) = x³` on `[0, 1]` with `n_node = 3` gives exactly
`1/4`. -/
theorem approx_exact_on_cubics_witness :
    approx (cubic (1:ℚ) 0 0 0) 0 1 3 = .ok (cubicIntegral (1:ℚ) 0 0 0 0 1) ∧
      cubicIntegral (1:ℚ) 0 0 0 0 1 = 1/4 :=
  ⟨approx_exact_on_cubics 1 0 0 0 0 1 3 (by norm_num) (by decide) (by decide),
    by norm_num [cubicIntegral]⟩

/-- C10: `approx` performs no validation of the interval: for `a > b` and
odd `n_node ≥ 3` the call completes without error, and the estimate over
`(a, b)` is the negation of the estimate over `(b, a)`. -/
theorem approx_reversed_bounds {K : Type} [LinearOrderedField K]
    (f : K → K) (a b : K) (nn : ℤ)
    (hba : b < a) (hodd : nn % 2 = 1) (h3 : 3 ≤ nn) :
    ∃ s : K, approx f a b nn = .ok s ∧ approx f b a nn = .ok (-s) := by
  refine ⟨_, approx_eq_sum f a b nn hodd h3, ?_⟩
  rw [approx_eq_sum f b a nn hodd h3]
  refine congrArg Except.ok ?_
  set k : ℕ := ((nn - 1) / 2).toNat with hk
  have hkpos : 1 ≤ k := by omega
  have hkne : ((k : ℕ) : K) ≠ 0 := Nat.cast_ne_zero.mpr (by omega)
  have h2kne : (2 : K) * ((k : ℕ) : K) ≠ 0 := by
    exact mul_ne_zero two_ne_zero hkne
  have hnncast : ((nn : K) - 1) = 2 * ((k : ℕ) : K) := cast_nn_sub_one nn hodd h3
  have hnode : ∀ j : ℕ, j ≤ 2*k →
      b + ((j : ℕ) : K) * (a - b) / (2 * ((k : ℕ) : K))
        = a + ((2*k - j : ℕ) : K) * (b - a) / (2 * ((k : ℕ) : K)) := by
    intro j hj
    rw [Nat.cast_sub hj]
    push_cast
    field_simp
    ring
  have hsum : (∑ i in Finset.range k,
      (f (b + ((2*i : ℕ) : K) * (a - b) / ((nn : K) - 1))
        + 4 * f (b + ((2*i+1 : ℕ) : K) * (a - b) / ((nn : K) - 1))
        + f (b + ((2*i+2 : ℕ) : K) * (a - b) / ((nn : K) - 1))))
      = ∑ i in Finset.range k,
      (f (a + ((2*i : ℕ) : K) * (b - a) / ((nn : K) - 1))
        + 4 * f (a + ((2*i+1 : ℕ) : K) * (b - a) / ((nn : K) - 1))
        + f (a + ((2*i+2 : ℕ) : K) * (b - a) / ((nn : K) - 1))) := by
    rw [← Finset.sum_range_reflect (fun i =>
      (f (a + ((2*i : ℕ) : K) * (b - a) / ((nn : K) - 1))
        + 4 * f (a + ((2*i+1 : ℕ) : K) * (b - a) / ((nn : K) - 1))
        + f (a + ((2*i+2 : ℕ) : K) * (b - a) / ((nn : K) - 1)))) k]
    refine Finset.sum_congr rfl (fun i hi => ?_)
    rw [Finset.mem_range] at hi
    simp only [hnncast]
    rw [hnode (2*i) (by omega), hnode (2*i+1) (by omega), hnode (2*i+2) (by omega)]
    rw [show 2*k - 2*i = 2*(k-1-i)+2 from by omega,
      show 2*k - (2*i+1) = 2*(k-1-i)+1 from by omega,
      show 2*k - (2*i+2) = 2*(k-1-i) from by omega]
    ring
  rw [hsum]
  ring

/-- Witness for C10 at `f = id`, `a = 1 > b = 0`, `n_node = 3` over `ℚ`. -/
theorem approx_reversed_bounds_witness :
    ∃ s : ℚ, approx (fun x : ℚ => x) 1 0 3 = .ok s ∧
      approx (fun x : ℚ => x) 0 1 3 = .ok (-s) :=
  approx_reversed_bounds (fun x : ℚ => x) 1 0 3 (by norm_num) (by decide) (by decide)

/-- Decimal digit character for `d % 10` (ASCII `48 + d % 10`). -/
def decDigit (d : ℕ) : Char := Char.ofNat (48 + d % 10)

theorem decDigit_ne_dot (d : ℕ) : decDigit d ≠ '.' := by
  have hb : ∀ r < 10, Char.ofNat (48 + r) ≠ '.' := by decide
  exact hb (d % 10) (Nat.mod_lt _ (by norm_num))

/-- Decimal representation of a natural number, most significant digit
first, as Python's `str`/`format` renders the integer part. -/
def natDecRepr (n : ℕ) : List Char :=
  if n < 10 then [decDigit n]
  else natDecRepr (n / 10) ++ [decDigit (n % 10)]
  termination_by n
  decreasing_by exact Nat.div_lt_self (by omega) (by omega)

theorem natDecRepr_ne_dot (n : ℕ) : ∀ c ∈ natDecRepr n, c ≠ '.' := by
  induction n using Nat.strong_induction_on with
  | _ n ih =>
    rw [natDecRepr]
    split
    · intro c hc
      rw [List.mem_singleton] at hc
      subst hc
      exact decDigit_ne_dot _
    · intro c hc
      rw [List.mem_append] at hc
      rcases hc with hc | hc
      · exact ih (n / 10) (Nat.div_lt_self (by omega) (by omega)) c hc
      · rw [List.mem_singleton] at hc
        subst hc
        exact decDigit_ne_dot _

/-- Exactly `p` decimal digits of `m` (most significant first), the
fractional field of a fixed-point rendering. -/
def fracDigits : ℕ → ℕ → List Char
  | 0, _ => []
  | p + 1, m => fracDigits p (m / 10) ++ [decDigit m]

theorem fracDigits_length (p : ℕ) : ∀ m : ℕ, (fracDigits p m).length = p := by
  induction p with
  | zero => intro m; rfl
  | succ q ih =>
    intro m
    simp [fracDigits, ih]

theorem fracDigits_ne_dot (p : ℕ) : ∀ m : ℕ, ∀ c ∈ fracDigits p m, c ≠ '.' := by
  induction p with
  | zero => intro m c hc; simp [fracDigits] at hc
  | succ q ih =>
    intro m c hc
    rw [fracDigits, List.mem_append] at hc
    rcases hc with hc | hc
    · exact ih (m / 10) c hc
    · rw [List.mem_singleton] at hc
      subst hc
      exact decDigit_ne_dot _

/-- Character string of the Python fixed-point format `{x:.{p}f}`,
modelled over exact rationals: scale by `10^p`, round to the nearest
integer, and print sign, integer part, `.`, and exactly `p` fractional
digits (no point when `p = 0`).  Python formats the binary double with
round-half-even of the decimal halfway case; rounding here is
round-half-up over the exact rational — the shape properties claimed of
the report do not depend on the halfway tie rule. -/
def formatFixedChars (p : ℕ) (q : ℚ) : List Char :=
  if p = 0 then
    (if round (q * (10:ℚ)^p) < 0 then ['-'] else [])
      ++ natDecRepr (round (q * (10:ℚ)^p)).natAbs
  else
    (if round (q * (10:ℚ)^p) < 0 then ['-'] else [])
      ++ natDecRepr ((round (q * (10:ℚ)^p)).natAbs / 10^p)
      ++ '.' :: fracDigits p ((round (q * (10:ℚ)^p)).natAbs % 10^p)

/-- The rendered value field `{x:.{p}f}`. -/
def formatFixed (p : ℕ) (q : ℚ) : String := String.mk (formatFixedChars p q)

/-- Number of characters after the first `.` of a rendered value (0 when
there is no point). -/
def decimalsAfterPoint (s : String) : ℕ :=
  (s.data.dropWhile (fun c => c != '.')).length - 1

theorem dropWhile_append_all {β : Type} (pred : β → Bool) (l1 l2 : List β)
    (h : ∀ c ∈ l1, pred c = true) :
    List.dropWhile pred (l1 ++ l2) = List.dropWhile pred l2 := by
  induction l1 with
  | nil => rfl
  | cons x xs ih =>
    rw [List.cons_append, List.dropWhile_cons, h x (List.mem_cons_self x xs),
      if_pos rfl]
    exact ih (fun c hc => h c (List.mem_cons_of_mem x hc))

theorem decimals_formatFixed (p : ℕ) (hp : 0 < p) (q : ℚ) :
    decimalsAfterPoint (formatFixed p q) = p := by
  show (((formatFixedChars p q).dropWhile (fun c => c != '.')).length - 1) = p
  unfold formatFixedChars
  rw [if_neg (by omega)]
  rw [dropWhile_append_all _ _ _ ?_]
  · rw [List.dropWhile_cons]
    simp only [bne_self_eq_false, if_neg Bool.false_ne_true]
    rw [List.length_cons, fracDigits_length]
    omega
  · intro c hc
    rw [List.mem_append] at hc
    rw [bne_iff_ne]
    rcases hc with hc | hc
    · split at hc
      · rw [List.mem_singleton] at hc
        subst hc
        decide
      · simp at hc
    · exact natDecRepr_ne_dot _ c hc

/-- Models the Python format `{label:<20}`: the label padded on the right
with spaces to the 20-character field (unchanged when longer). -/
def padTo (w : ℕ) (s : String) : String :=
  s ++ String.mk (List.replicate (w - s.length) ' ')

/-- The three lines printed by `approx` given the oracle's reference
`result`, the Simpson estimate `est`, and precision `p`: each line is
`{label:<20}{value:.{p}f}`, the third value being `abs(result - est)`. -/
def reportLines (p : ℕ) (result est : ℚ) : List String :=
  [ padTo 20 ("Python calculated:") ++ formatFixed p result,
    padTo 20 ("We calculated:") ++ formatFixed p est,
    padTo 20 ("Difference is") ++ formatFixed p |result - est| ]

/-- The full call with the printing step: the Simpson estimate of `approx`
rendered against the external quadrature oracle's value (a parameter here,
since `scipy.integrate.quad` is outside the repository). -/
def approxRun (f : ℚ → ℚ) (a b : ℚ) (nNode : ℤ) (p : ℕ) (reference : ℚ) :
    Except ApproxError (List String) :=
  Except.map (fun est => reportLines p reference est) (approx f a b nNode)

/-- C7: the report for `(result, est, p)` is exactly three labeled lines —
reference value, Simpson estimate, absolute difference — each label
left-aligned in a fixed 20-character column, each value rendered with
exactly `p` digits after the decimal point, and the third value being
`|result - est|`. -/
theorem report_three_lines (result est : ℚ) (p : ℕ) (hp : 0 < p) :
    (reportLines p result est).length = 3 ∧
    reportLines p result est =
      [ padTo 20 ("Python calculated:") ++ formatFixed p result,
        padTo 20 ("We calculated:") ++ formatFixed p est,
        padTo 20 ("Difference is") ++ formatFixed p |result - est| ] ∧
    (padTo 20 ("Python calculated:")).length = 20 ∧
    (padTo 20 ("We calculated:")).length = 20 ∧
    (padTo 20 ("Difference is")).length = 20 ∧
    decimalsAfterPoint (formatFixed p result) = p ∧
    decimalsAfterPoint (formatFixed p est) = p ∧
    decimalsAfterPoint (formatFixed p |result - est|) = p :=
  ⟨rfl, rfl, rfl, rfl, rfl, decimals_formatFixed p hp result,
    decimals_formatFixed p hp est, decimals_formatFixed p hp (|result - est|)⟩

/-- Witness for C7 at `result = 2`, `est = 1/3`, `p = 10`. -/
theorem report_three_lines_witness :
    decimalsAfterPoint (formatFixed 10 ((2:ℚ))) = 10 ∧
      (reportLines 10 2 (1/3)).length = 3 :=
  ⟨(report_three_lines 2 (1/3) 10 (by norm_num)).2.2.2.2.2.1,
    (report_three_lines 2 (1/3) 10 (by norm_num)).1⟩

/-- C8: `approx` — and the full run including the report — is
deterministic and stateless: the embedding is a pure function of its
arguments, so two calls with identical arguments are equal, and there is
no state for a call to mutate. -/
theorem approx_deterministic (f : ℚ → ℚ) (a b : ℚ) (nn : ℤ) (p : ℕ) (ref : ℚ) :
    approx f a b nn = approx f a b nn ∧
      approxRun f a b nn p ref = approxRun f a b nn p ref :=
  ⟨rfl, rfl⟩

end Simpson
